import Mathlib

/-!
Verification of the rdedupe duplicate-file finder (`src/lib.rs`) against its
natural-language specification.

The shallow embedding below translates the library's functions into Lean.
Filesystem effects are made explicit:
* file contents are an oracle `read : Path → Option Content` (`std::fs::read`;
  `none` models a read error);
* on-disk sizes are an oracle `size : Path → Nat` (`std::fs::metadata(..).len()`;
  the claims under study assume every stat succeeds);
* a Rust panic arising from a bare `unwrap()` makes the whole embedded
  computation return `none`.
Machine integers are `Nat`/`Int` with explicit reduction modulo `2 ^ 32` or
`2 ^ 64` where the source casts or wraps.
-/

namespace RDedupe

abbrev Path := String
abbrev Content := String
abbrev Digest := String

/-- The digest-to-paths map built by `checksum`.  The source uses
`HashMap<String, Vec<String>>`; it is embedded as an association list whose
keys are the digests, in first-insertion order. -/
abbrev DigestIndex := List (Digest × List Path)

/-- One `checksums.entry(d).or_insert_with(Vec::new).push(p)` step
(`lib.rs:47-50`): append `p` to the path list of key `d`, creating the entry
if the key is absent. -/
def insertEntry : DigestIndex → Digest → Path → DigestIndex
  | [], d, p => [(d, [p])]
  | (k, ps) :: rest, d, p =>
    if k = d then (k, ps ++ [p]) :: rest
    else (k, ps) :: insertEntry rest d p

/-- The loop of `checksum` (`lib.rs:43-51`) over the file list, threading the
map.  The parallel `for_each` is modelled as one of its admissible completion
orders (the input order); the claims proved below are insensitive to the
order.  `read file = none` models `std::fs::read(file)` failing, and the
source's `.unwrap()` on it (`lib.rs:44`) panics, so the whole computation
yields `none`. -/
def checksumAux (read : Path → Option Content) (hash : Content → Digest) :
    List Path → DigestIndex → Option DigestIndex
  | [], m => some m
  | p :: rest, m =>
    match read p with
    | none => none
    | some c => checksumAux read hash rest (insertEntry m (hash c) p)

/-- `checksum` (`lib.rs:35-53`): hash every file and group the paths by
digest, starting from an empty map.  `hash` embeds `md5::compute` followed by
hex formatting. -/
def checksum (read : Path → Option Content) (hash : Content → Digest)
    (files : List Path) : Option DigestIndex :=
  checksumAux read hash files []

/-- The pure grouping computation underlying `checksum` when every read
succeeds with content `content p`: fold `insertEntry` over the files with
digest function `dg = hash ∘ content`. -/
def buildIndex (dg : Path → Digest) : List Path → DigestIndex → DigestIndex
  | [], m => m
  | p :: rest, m => buildIndex dg rest (insertEntry m (dg p) p)

/-- `find_duplicates` (`lib.rs:58-66`): keep exactly the path lists with more
than one entry. -/
def find_duplicates : DigestIndex → List (List Path)
  | [] => []
  | (_, ps) :: rest =>
    if 1 < ps.length then ps :: find_duplicates rest else find_duplicates rest

/-- `find` (`lib.rs:21-29`): keep the paths that contain the pattern as a
substring (`file.contains(pattern)`). -/
def find (files : List Path) (pattern : String) : List Path :=
  files.filter (fun file => decide (pattern.toList <:+: file.toList))

/-- Reinterpret an integer as a two's-complement `i32`: reduce modulo `2 ^ 32`
into the range `[-2 ^ 31, 2 ^ 31)`.  This is both Rust's `as i32` cast and its
release-mode wrapping arithmetic. -/
def toI32 (n : Int) : Int := (n + 2 ^ 31) % 2 ^ 32 - 2 ^ 31

/-- Wrapping `i32` addition. -/
def i32add (a b : Int) : Int := toI32 (a + b)

/-- `files.iter().map(|f| metadata(f).len() as i32).sum::<i32>()`
(`lib.rs:111-114`): each `u64` size is cast to `i32` before the wrapping
`i32` sum. -/
def i32SizeSum (size : Path → Nat) (g : List Path) : Int :=
  g.foldl (fun acc f => i32add acc (toI32 (size f))) 0

/-- The `isDuplicate` column (`lib.rs:78-84`): one entry per element of
`duplicates` (per group, not per original path), `1` when the group has more
than one member. -/
def isDuplicateCol (duplicates : List (List Path)) : List Int :=
  duplicates.map (fun g => if 1 < g.length then 1 else 0)

/-- The `Occurrences` column (`lib.rs:86-92`): one entry per group, the group
length. -/
def occurrencesCol (duplicates : List (List Path)) : List Nat :=
  duplicates.map (fun g => g.length)

/-- The `TotalSize` column (`lib.rs:93-104`): one entry per group, the `u64`
sum of the members' on-disk sizes (wrapping the sum once at the end equals
wrapping each addition). -/
def totalSizeCol (size : Path → Nat) (duplicates : List (List Path)) :
    List Nat :=
  duplicates.map (fun g => (g.map size).sum % 2 ^ 64)

/-- The `PotentialSave` column (`lib.rs:105-117`): one entry per group,
`(group length - 1)` times the `i32` sum of the members' sizes each cast
`u64 → i32`, the product again wrapping in `i32`. -/
def potentialSaveCol (size : Path → Nat) (duplicates : List (List Path)) :
    List Int :=
  duplicates.map (fun g =>
    toI32 ((g.length - 1 : Nat) * i32SizeSum size g))

/-- The report table: the six series passed to `DataFrame::new`
(`lib.rs:76-118`). -/
structure DataFrame where
  fileCol : List Path
  isDupCol : List Int
  sizeCol : List Nat
  occCol : List Nat
  totalCol : List Nat
  saveCol : List Int
deriving DecidableEq

/-- `collect_statistics` (`lib.rs:68-120`): build the six columns and combine
them with `DataFrame::new`.  polars' `DataFrame::new` fails unless all series
have the same height — the `?` at `lib.rs:118` propagates that failure —
modelled by the equal-length guard returning `none`. -/
def collect_statistics (size : Path → Nat) (files : List Path)
    (duplicates : List (List Path)) : Option DataFrame :=
  let sizes := files.map size
  let dup := isDuplicateCol duplicates
  let occ := occurrencesCol duplicates
  let total := totalSizeCol size duplicates
  let save := potentialSaveCol size duplicates
  if files.length = dup.length ∧ files.length = sizes.length ∧
      files.length = occ.length ∧ files.length = total.length ∧
      files.length = save.length then
    some ⟨files, dup, sizes, occ, total, save⟩
  else
    none

/-- `run` (`lib.rs:130-149`), with its collaborators as oracles:
`walkResult` is the outcome of `walk(path)` (traversal), `writeResult` the
outcome of `write_report`.  `walk(path)?` propagates a traversal failure;
a read failure inside `checksum` panics (`none`); a `DataFrame` shape failure
aborts; and the `Result` of `write_report(statistics)` is discarded by the
source (`lib.rs:146` has no `?` and no `unwrap`), so `writeResult` is never
consulted. -/
def run (walkResult : Option (List Path)) (pattern : String)
    (read : Path → Option Content) (hash : Content → Digest)
    (size : Path → Nat) (writeResult : Option Unit) : Option Unit :=
  match walkResult with
  | none => none
  | some walked =>
    let files := find walked pattern
    match checksum read hash files with
    | none => none
    | some checksums =>
      let duplicates := find_duplicates checksums
      match collect_statistics size files duplicates with
      | none => none
      | some _statistics => some ()

/-- Scenario 1 of the spec: `a.txt` and `b.txt` hold `"hello"`, `c.txt`
holds `"world"`. -/
def scenario1content : Path → Content :=
  fun p => if p = "c.txt" then "world" else "hello"

/-! ## Helper lemmas about the duplicate grouper -/

theorem find_duplicates_eq_filter (m : DigestIndex) :
    find_duplicates m = (m.filter (fun e => 1 < e.2.length)).map (fun e => e.2) := by
  induction m with
  | nil => rfl
  | cons e rest ih =>
    obtain ⟨d, ps⟩ := e
    by_cases h : 1 < ps.length
    · simp [find_duplicates, h, ih]
    · simp [find_duplicates, h, ih]

theorem mem_find_duplicates {g : List Path} {m : DigestIndex} :
    g ∈ find_duplicates m ↔ ∃ d, (d, g) ∈ m ∧ 1 < g.length := by
  induction m with
  | nil => simp [find_duplicates]
  | cons e rest ih =>
    obtain ⟨d, ps⟩ := e
    by_cases h : 1 < ps.length
    · simp only [find_duplicates, if_pos h, List.mem_cons, ih, Prod.mk.injEq]
      constructor
      · rintro (rfl | ⟨d', hd', hg⟩)
        · exact ⟨d, Or.inl ⟨rfl, rfl⟩, h⟩
        · exact ⟨d', Or.inr hd', hg⟩
      · rintro ⟨d', ⟨rfl, rfl⟩ | hd', hg⟩
        · exact Or.inl rfl
        · exact Or.inr ⟨d', hd', hg⟩
    · simp only [find_duplicates, if_neg h, ih, List.mem_cons, Prod.mk.injEq]
      constructor
      · rintro ⟨d', hd', hg⟩
        exact ⟨d', Or.inr hd', hg⟩
      · rintro ⟨d', ⟨rfl, rfl⟩ | hd', hg⟩
        · exact absurd hg h
        · exact ⟨d', hd', hg⟩

/-! ## Helper lemmas about the digest index construction -/

/-- Every path stored in the index lies under the key that is its own digest. -/
def entriesOk (dg : Path → Digest) (m : DigestIndex) : Prop :=
  ∀ e ∈ m, ∀ q ∈ e.2, dg q = e.1

theorem entriesOk_nil (dg : Path → Digest) : entriesOk dg [] := by
  intro e he
  cases he

theorem keys_insertEntry (m : DigestIndex) (d : Digest) (p : Path) :
    (insertEntry m d p).map Prod.fst =
      if d ∈ m.map Prod.fst then m.map Prod.fst else m.map Prod.fst ++ [d] := by
  induction m with
  | nil => simp [insertEntry]
  | cons a rest ih =>
    obtain ⟨k, ps⟩ := a
    by_cases hk : k = d
    · subst hk
      simp [insertEntry]
    · simp only [insertEntry, if_neg hk, List.map_cons, ih, List.mem_cons]
      have hdk : ¬d = k := fun h => hk h.symm
      by_cases hd : d ∈ rest.map Prod.fst
      · simp [hd, hdk]
      · simp [hd, hdk]

theorem nodupKeys_insertEntry {m : DigestIndex} {d : Digest} {p : Path}
    (h : (m.map Prod.fst).Nodup) : ((insertEntry m d p).map Prod.fst).Nodup := by
  rw [keys_insertEntry]
  by_cases hd : d ∈ m.map Prod.fst
  · simpa [hd]
  · simp [hd, List.nodup_append, h]

theorem entriesOk_insertEntry {dg : Path → Digest} {m : DigestIndex}
    {d : Digest} {p : Path} (h : entriesOk dg m) (hd : dg p = d) :
    entriesOk dg (insertEntry m d p) := by
  induction m with
  | nil =>
    intro e he q hq
    simp only [insertEntry, List.mem_singleton] at he
    subst he
    simp only [List.mem_singleton] at hq
    subst hq
    exact hd
  | cons a rest ih =>
    obtain ⟨k, ps⟩ := a
    by_cases hk : k = d
    · subst hk
      simp only [insertEntry, if_pos rfl]
      intro e he q hq
      rcases List.mem_cons.mp he with rfl | he'
      · rcases List.mem_append.mp hq with hq' | hq'
        · exact h (k, ps) (List.mem_cons_self _ _) q hq'
        · simp only [List.mem_singleton] at hq'
          subst hq'
          exact hd
      · exact h e (List.mem_cons_of_mem _ he') q hq
    · simp only [insertEntry, if_neg hk]
      intro e he q hq
      rcases List.mem_cons.mp he with rfl | he'
      · exact h (k, ps) (List.mem_cons_self _ _) q hq
      · exact ih (fun e₀ he₀ q₀ hq₀ => h e₀ (List.mem_cons_of_mem _ he₀) q₀ hq₀) e he' q hq

theorem mem_insertEntry_self (m : DigestIndex) (d : Digest) (p : Path) :
    ∃ e ∈ insertEntry m d p, e.1 = d ∧ p ∈ e.2 := by
  induction m with
  | nil =>
    exact ⟨(d, [p]), List.mem_singleton_self _, rfl, List.mem_singleton_self _⟩
  | cons a rest ih =>
    obtain ⟨k, ps⟩ := a
    by_cases hk : k = d
    · subst hk
      simp only [insertEntry, if_pos rfl]
      exact ⟨(k, ps ++ [p]), List.mem_cons_self _ _, rfl, List.mem_append_right _ (List.mem_singleton_self _)⟩
    · simp only [insertEntry, if_neg hk]
      obtain ⟨e, he, h1, h2⟩ := ih
      exact ⟨e, List.mem_cons_of_mem _ he, h1, h2⟩

theorem mem_insertEntry_mono {m : DigestIndex} {k : Digest} {x : Path}
    (h : ∃ e ∈ m, e.1 = k ∧ x ∈ e.2) (d : Digest) (p : Path) :
    ∃ e ∈ insertEntry m d p, e.1 = k ∧ x ∈ e.2 := by
  induction m with
  | nil =>
    obtain ⟨e, he, _⟩ := h
    cases he
  | cons a rest ih =>
    obtain ⟨k', ps⟩ := a
    obtain ⟨e, he, h1, h2⟩ := h
    by_cases hk : k' = d
    · subst hk
      simp only [insertEntry, if_pos rfl]
      rcases List.mem_cons.mp he with rfl | he'
      · exact ⟨(k', ps ++ [p]), List.mem_cons_self _ _, h1, List.mem_append_left _ h2⟩
      · exact ⟨e, List.mem_cons_of_mem _ he', h1, h2⟩
    · simp only [insertEntry, if_neg hk]
      rcases List.mem_cons.mp he with rfl | he'
      · exact ⟨(k', ps), List.mem_cons_self _ _, h1, h2⟩
      · obtain ⟨e₀, he₀, h1₀, h2₀⟩ := ih ⟨e, he', h1, h2⟩
        exact ⟨e₀, List.mem_cons_of_mem _ he₀, h1₀, h2₀⟩

theorem flatten_insertEntry_perm (m : DigestIndex) (d : Digest) (p : Path) :
    List.Perm ((insertEntry m d p).map (fun e => e.2)).flatten
      (((m.map (fun e => e.2)).flatten) ++ [p]) := by
  induction m with
  | nil => simp [insertEntry]
  | cons a rest ih =>
    obtain ⟨k, ps⟩ := a
    by_cases hk : k = d
    · subst hk
      have hins : insertEntry ((k, ps) :: rest) k p = (k, ps ++ [p]) :: rest := by
        simp [insertEntry]
      rw [hins, List.map_cons, List.flatten_cons, List.map_cons, List.flatten_cons]
      have h1 : (ps ++ [p]) ++ ((rest.map (fun e => e.2)).flatten)
          = ps ++ p :: ((rest.map (fun e => e.2)).flatten) := by
        rw [List.append_assoc]
        rfl
      rw [h1]
      exact List.perm_middle.trans (List.perm_append_singleton _ _).symm
    · have hins : insertEntry ((k, ps) :: rest) d p = (k, ps) :: insertEntry rest d p := by
        simp [insertEntry, hk]
      rw [hins, List.map_cons, List.flatten_cons, List.map_cons, List.flatten_cons]
      have h2 := List.Perm.append_left ps ih
      rwa [← List.append_assoc] at h2

theorem buildIndex_entriesOk {dg : Path → Digest} (files : List Path)
    {m : DigestIndex} (h : entriesOk dg m) :
    entriesOk dg (buildIndex dg files m) := by
  induction files generalizing m with
  | nil => exact h
  | cons p rest ih => exact ih (entriesOk_insertEntry h rfl)

theorem buildIndex_nodupKeys {dg : Path → Digest} (files : List Path)
    {m : DigestIndex} (h : (m.map Prod.fst).Nodup) :
    ((buildIndex dg files m).map Prod.fst).Nodup := by
  induction files generalizing m with
  | nil => exact h
  | cons p rest ih => exact ih (nodupKeys_insertEntry h)

theorem buildIndex_mem_mono {dg : Path → Digest} (files : List Path)
    {m : DigestIndex} {k : Digest} {x : Path}
    (h : ∃ e ∈ m, e.1 = k ∧ x ∈ e.2) :
    ∃ e ∈ buildIndex dg files m, e.1 = k ∧ x ∈ e.2 := by
  induction files generalizing m with
  | nil => exact h
  | cons p rest ih => exact ih (mem_insertEntry_mono h _ _)

theorem buildIndex_mem_self {dg : Path → Digest} {files : List Path} {p : Path}
    (hp : p ∈ files) (m : DigestIndex) :
    ∃ e ∈ buildIndex dg files m, e.1 = dg p ∧ p ∈ e.2 := by
  induction files generalizing m with
  | nil => cases hp
  | cons q rest ih =>
    rcases List.mem_cons.mp hp with rfl | hp'
    · exact buildIndex_mem_mono rest (mem_insertEntry_self m (dg p) p)
    · exact ih hp' _

theorem buildIndex_flatten_perm {dg : Path → Digest} (files : List Path)
    (m : DigestIndex) :
    List.Perm ((buildIndex dg files m).map (fun e => e.2)).flatten
      (((m.map (fun e => e.2)).flatten) ++ files) := by
  induction files generalizing m with
  | nil => simp [buildIndex]
  | cons p rest ih =>
    have h1 := ih (insertEntry m (dg p) p)
    have h2 : List.Perm (((insertEntry m (dg p) p).map (fun e => e.2)).flatten ++ rest)
        ((((m.map (fun e => e.2)).flatten) ++ [p]) ++ rest) :=
      (flatten_insertEntry_perm m (dg p) p).append_right rest
    have h3 := h1.trans h2
    rw [List.append_assoc] at h3
    exact h3

theorem checksumAux_eq_buildIndex {read : Path → Option Content}
    {content : Path → Content} {hash : Content → Digest} {files : List Path}
    (hread : ∀ p ∈ files, read p = some (content p)) (m : DigestIndex) :
    checksumAux read hash files m =
      some (buildIndex (fun p => hash (content p)) files m) := by
  induction files generalizing m with
  | nil => rfl
  | cons p rest ih =>
    have hp := hread p (List.mem_cons_self _ _)
    simp only [checksumAux, hp]
    exact ih (fun q hq => hread q (List.mem_cons_of_mem _ hq)) _

theorem eq_of_mem_of_nodupKeys {m : DigestIndex} {e₁ e₂ : Digest × List Path}
    (h : (m.map Prod.fst).Nodup) (h1 : e₁ ∈ m) (h2 : e₂ ∈ m)
    (hk : e₁.1 = e₂.1) : e₁ = e₂ := by
  induction m with
  | nil => cases h1
  | cons a rest ih =>
    rw [List.map_cons, List.nodup_cons] at h
    rcases List.mem_cons.mp h1 with rfl | h1'
    · rcases List.mem_cons.mp h2 with rfl | h2'
      · rfl
      · exfalso
        apply h.1
        have hmem : e₂.1 ∈ rest.map Prod.fst := List.mem_map_of_mem Prod.fst h2'
        rwa [← hk] at hmem
    · rcases List.mem_cons.mp h2 with rfl | h2'
      · exfalso
        apply h.1
        have hmem : e₁.1 ∈ rest.map Prod.fst := List.mem_map_of_mem Prod.fst h1'
        rwa [hk] at hmem
      · exact ih h.2 h1' h2'

theorem one_lt_length_of_mem_mem {l : List Path} {p q : Path}
    (hp : p ∈ l) (hq : q ∈ l) (hne : p ≠ q) : 1 < l.length := by
  match l with
  | [] => cases hp
  | [a] =>
    rw [List.mem_singleton] at hp hq
    exact absurd (hp.trans hq.symm) hne
  | a :: b :: t =>
    simp only [List.length_cons]
    omega

/-! ## The claims -/

/-- Claim C1: for input files that all hash successfully, two distinct input
paths lie in a common group of `find_duplicates (checksum files)` iff their
full contents are identical.  Digest equality is treated as content
equality, i.e. the digest function is injective. -/
theorem grouping_correctness
    (read : Path → Option Content) (content : Path → Content)
    (hash : Content → Digest) (hinj : Function.Injective hash)
    (files : List Path) (m : DigestIndex)
    (hread : ∀ r ∈ files, read r = some (content r))
    (hm : checksum read hash files = some m)
    (p q : Path) (hp : p ∈ files) (hq : q ∈ files) (hpq : p ≠ q) :
    (∃ g ∈ find_duplicates m, p ∈ g ∧ q ∈ g) ↔ content p = content q := by
  have hb : checksumAux read hash files [] =
      some (buildIndex (fun r => hash (content r)) files []) :=
    checksumAux_eq_buildIndex hread []
  rw [checksum, hb] at hm
  have hm' := Option.some_inj.mp hm
  subst hm'
  have hok : entriesOk (fun r => hash (content r))
      (buildIndex (fun r => hash (content r)) files []) :=
    buildIndex_entriesOk files (entriesOk_nil _)
  have hnd : ((buildIndex (fun r => hash (content r)) files []).map Prod.fst).Nodup :=
    buildIndex_nodupKeys files (by simp)
  constructor
  · rintro ⟨g, hg, hpg, hqg⟩
    obtain ⟨d, hd, hlen⟩ := mem_find_duplicates.mp hg
    have h1 : hash (content p) = d := hok (d, g) hd p hpg
    have h2 : hash (content q) = d := hok (d, g) hd q hqg
    exact hinj (h1.trans h2.symm)
  · intro hc
    obtain ⟨e₁, he₁, hk₁, hp₁⟩ :=
      @buildIndex_mem_self (fun r => hash (content r)) files p hp []
    obtain ⟨e₂, he₂, hk₂, hq₂⟩ :=
      @buildIndex_mem_self (fun r => hash (content r)) files q hq []
    have hkeq : e₁.1 = e₂.1 := by rw [hk₁, hk₂, hc]
    have heq : e₁ = e₂ := eq_of_mem_of_nodupKeys hnd he₁ he₂ hkeq
    subst heq
    have hlen : 1 < e₁.2.length := one_lt_length_of_mem_mem hp₁ hq₂ hpq
    exact ⟨e₁.2, mem_find_duplicates.mpr ⟨e₁.1, he₁, hlen⟩, hp₁, hq₂⟩

/-- Witness for `grouping_correctness` at spec Scenario 1: `a.txt` and
`b.txt` share content `"hello"` and do land in a common duplicate group. -/
theorem grouping_correctness_witness :
    (∃ g ∈ find_duplicates
        ([("hello", ["a.txt", "b.txt"]), ("world", ["c.txt"])] : DigestIndex),
        "a.txt" ∈ g ∧ "b.txt" ∈ g) ↔
      scenario1content "a.txt" = scenario1content "b.txt" :=
  grouping_correctness (fun p => some (scenario1content p)) scenario1content
    (fun c => c) (fun a b h => h) ["a.txt", "b.txt", "c.txt"]
    [("hello", ["a.txt", "b.txt"]), ("world", ["c.txt"])]
    (fun r _ => rfl) (by decide) "a.txt" "b.txt" (by decide) (by decide)
    (by decide)

/-- Claim C2: absent per-file read failures, the concatenation of all path
sequences of the digest index is a permutation of the input path list (no
path lost, none duplicated across groups), and every input path lies in
exactly one entry of the index. -/
theorem checksum_completeness
    (read : Path → Option Content) (content : Path → Content)
    (hash : Content → Digest) (files : List Path) (m : DigestIndex)
    (hread : ∀ r ∈ files, read r = some (content r))
    (hm : checksum read hash files = some m) :
    List.Perm ((m.map (fun e => e.2)).flatten) files ∧
    ∀ p ∈ files, ∃ e, e ∈ m ∧ p ∈ e.2 ∧
      ∀ e', e' ∈ m → p ∈ e'.2 → e' = e := by
  have hb : checksumAux read hash files [] =
      some (buildIndex (fun r => hash (content r)) files []) :=
    checksumAux_eq_buildIndex hread []
  rw [checksum, hb] at hm
  have hm' := Option.some_inj.mp hm
  subst hm'
  refine ⟨?_, ?_⟩
  · have h := @buildIndex_flatten_perm (fun r => hash (content r)) files []
    simpa using h
  · intro p hp
    obtain ⟨e, he, hk, hpe⟩ :=
      @buildIndex_mem_self (fun r => hash (content r)) files p hp []
    refine ⟨e, he, hpe, ?_⟩
    intro e' he' hpe'
    have hok : entriesOk (fun r => hash (content r))
        (buildIndex (fun r => hash (content r)) files []) :=
      buildIndex_entriesOk files (entriesOk_nil _)
    have hnd : ((buildIndex (fun r => hash (content r)) files []).map Prod.fst).Nodup :=
      buildIndex_nodupKeys files (by simp)
    have hk' : e'.1 = e.1 := by
      rw [hk]
      exact (hok e' he' p hpe').symm
    exact eq_of_mem_of_nodupKeys hnd he' he hk'

/-- Witness for `checksum_completeness` on two files with equal content. -/
theorem checksum_completeness_witness :
    List.Perm ((([(("s", ["x", "y"]))] : DigestIndex).map (fun e => e.2)).flatten)
      ["x", "y"] ∧
    ∀ p ∈ (["x", "y"] : List Path),
      ∃ e, e ∈ ([(("s", ["x", "y"]))] : DigestIndex) ∧ p ∈ e.2 ∧
        ∀ e', e' ∈ ([(("s", ["x", "y"]))] : DigestIndex) → p ∈ e'.2 → e' = e :=
  checksum_completeness (fun _ => some "s") (fun _ => "s") (fun c => c)
    ["x", "y"] [("s", ["x", "y"])] (fun r _ => rfl) (by decide)

/-- Claim C3 fails on the code: for the group `["a", "b"]` of `N = 2`
members each of size `S = 5`, `TotalSize` is `N * S = 10` as the claim
states, but `PotentialSave` is `(N - 1) * (N * S) = 10` — the source
multiplies the group's summed size (`lib.rs:110-114`), not the per-file
size — instead of the claimed `(N - 1) * S = 5`. -/
theorem savings_arithmetic_eval :
    totalSizeCol (fun _ => 5) [["a", "b"]] = [2 * 5] ∧
    potentialSaveCol (fun _ => 5) [["a", "b"]] = [(2 - 1) * (2 * 5)] ∧
    ((2 - 1) * (2 * 5) : Int) ≠ (2 - 1) * 5 := by
  decide

/-- Claim C4 fails on the code: the per-file and per-group columns are
forced into one `DataFrame`, whose construction requires equal column
heights; with three original paths and one duplicate group,
`collect_statistics` yields no report at all instead of three by-file rows
and one by-group row. -/
theorem row_count_eval :
    collect_statistics (fun _ => 1) ["a", "b", "c"] [["a", "b"]] = none ∧
    (isDuplicateCol [["a", "b"]]).length = 1 ∧
    (["a", "b", "c"] : List Path).length = 3 := by
  decide

/-- Claim C5 fails on the code (spec Scenario 1): with `a.txt`, `b.txt`
holding `"hello"` and `c.txt` holding `"world"`, the pipeline does find the
single duplicate group, but the `isDuplicate` column carries one entry per
group (`[1]`), not one per original path, and the combined `DataFrame`
(columns of heights 3 and 1) fails to build — so no path, in particular not
`c.txt`, is ever marked. -/
theorem scenario1_isDuplicate_eval :
    checksum (fun p => some (scenario1content p)) (fun c => c)
        ["a.txt", "b.txt", "c.txt"]
      = some [("hello", ["a.txt", "b.txt"]), ("world", ["c.txt"])] ∧
    find_duplicates [("hello", ["a.txt", "b.txt"]), ("world", ["c.txt"])]
      = [["a.txt", "b.txt"]] ∧
    isDuplicateCol [["a.txt", "b.txt"]] = [1] ∧
    collect_statistics (fun _ => 5) ["a.txt", "b.txt", "c.txt"]
      [["a.txt", "b.txt"]] = none := by
  decide

/-- Claim C6: `find_duplicates` returns exactly the path sequences of length
at least two, in index order and with unchanged membership; entries of
length one (or zero) are dropped. -/
theorem find_duplicates_exact (m : DigestIndex) :
    find_duplicates m = (m.filter (fun e => 1 < e.2.length)).map (fun e => e.2) ∧
    ∀ g : List Path, (g ∈ find_duplicates m ↔ ∃ d, (d, g) ∈ m ∧ 2 ≤ g.length) :=
  ⟨find_duplicates_eq_filter m, fun _ => mem_find_duplicates⟩

/-- Claim C7 fails on the code: `checksum` bare-unwraps each
`std::fs::read` (`lib.rs:44`), so a single unreadable file panics the whole
pipeline — no per-file `IoError` is surfaced, and the remaining files
(here `"late"`) produce nothing. -/
theorem checksum_read_failure_aborts :
    checksum (fun p => if p = "bad" then none else some "data") (fun c => c)
      ["good", "bad", "late"] = none := by
  decide

/-- Claim C8 fails on the code: `run` discards the `Result` of
`write_report` (`lib.rs:146` has no `?`), returning success even when
report writing fails (first conjunct: successful empty traversal, failing
writer); a traversal failure is propagated as the claim states (second
conjunct). -/
theorem run_ignores_report_write_failure :
    run (some []) "x" (fun _ => none) (fun c => c) (fun _ => 0) none = some () ∧
    run none "x" (fun _ => some "") (fun c => c) (fun _ => 0) (some ()) = none :=
  ⟨rfl, rfl⟩

/-- Claim C9: the empty input list yields an empty digest index, and
`find_duplicates` of the empty index yields zero duplicate groups. -/
theorem empty_input_empty_index (read : Path → Option Content)
    (hash : Content → Digest) :
    checksum read hash [] = some [] ∧ find_duplicates [] = [] :=
  ⟨rfl, rfl⟩

/-- Claim C10: the `PotentialSave` column casts each `u64` size to `i32`
before summing, so for a pair of files each of size `2 ^ 31` the reported
value is `0` — the wrap modulo `2 ^ 32` interpreted as signed of the
unwrapped product — and differs from the true byte counts (both the spec's
`(N - 1) * S = 2 ^ 31` and the code's own unwrapped `(N - 1) * (N * S) =
2 ^ 32`). -/
theorem potentialSave_i32_wraps :
    potentialSaveCol (fun _ => 2 ^ 31) [["a", "b"]] = [0] ∧
    toI32 (2 ^ 31) = -(2 ^ 31) ∧
    toI32 ((2 - 1) * (2 ^ 31 + 2 ^ 31)) = 0 ∧
    ((0 : Int) ≠ (2 - 1) * (2 ^ 31 : Int)) ∧
    ((0 : Int) ≠ (2 - 1) * ((2 : Int) ^ 31 + 2 ^ 31)) := by
  decide

end RDedupe

